import Mathlib

/-!
Shallow embedding of the quote/fact acquisition layer of the
EarningsTradingSystem repository, together with proofs about it.

Embedded source files:
* `src/ets/data/providers/rate_limiter.py` (`RateLimiter`, `retry_with_backoff`)
* `src/ets/data/providers/quotes_agg.py` (`_valid_bar`, `_from_finnhub`,
  `fetch_quote_basic`, `pct_change_today`, `_log`)
* `src/ets/data/providers/fetchers.py` (`_resolve_providers`, `fetch_factor`)

Modelling conventions:
* Python floats (monotonic-clock timestamps, window sizes, OHLCV values) are
  modelled as rationals `ℚ`; Python ints as `ℤ` / `ℕ`.
* A Python function that can raise is modelled with `Except` (or `Option` for
  an internal index error); wall-clock latencies passed to the pull log, and
  the sleeping between lock acquisitions, are external to the pure model.
* `RateLimiter.acquire` is a loop `while True:` whose body runs under the
  limiter lock at a monotonic instant `now`; `acquireStep` embeds one such
  body execution (the only observable, atomic step): it either returns
  (booking the cost), blocks (the caller will sleep and re-run the step
  later), or raises (the deque indexing `buf[idx]` fails).
-/

/-! ## rate_limiter.py -/

/-- `Window` dataclass: `size_sec` (float) and `capacity` (int). -/
structure Window where
  size_sec : ℚ
  capacity : ℤ
deriving DecidableEq

/-- State of a `RateLimiter`: `name`, `reserve = max(0, int(reserve))`, and the
parallel lists `_windows` / `_buffers` represented as a list of pairs (the
source only ever traverses them with `zip`, and they are created with equal
lengths in `__init__`).  Each buffer is a deque of booking timestamps, oldest
first. -/
structure RateLimiterState where
  name : String
  reserve : ℕ
  wins : List (Window × List ℚ)
deriving DecidableEq

/-- Result of one execution of the `while True:` body of `RateLimiter.acquire`
(run under the lock at monotonic time `now`):
`returned` = the `t_safe <= now` branch booked the cost and returned;
`blocked` = the body computed `t_safe > now`, so the caller sleeps and retries;
`raised` = `_next_safe_time` hit an `IndexError` (`buf[idx]` on an empty
deque).  In the latter two cases the state recorded is the pruned state left
behind by `_prune`. -/
inductive AcquireOutcome where
  | returned (st : RateLimiterState)
  | blocked (st : RateLimiterState) (tSafe : ℚ)
  | raised (st : RateLimiterState)
deriving DecidableEq

/-- `RateLimiter._prune(now)`: for each window drop the leading buffer entries
with `buf[0] <= now - win.size_sec`. -/
def prune (now : ℚ) (st : RateLimiterState) : RateLimiterState :=
  { st with
    wins := st.wins.map (fun p => (p.1, p.2.dropWhile (fun t => decide (t ≤ now - p.1.size_sec)))) }

/-- Loop body of `RateLimiter._next_safe_time` over the zipped
window/buffer pairs, threading the `earliest` accumulator.  `none` models the
`IndexError` raised by `buf[idx]` when the deque is empty (`idx = -1` there:
Python resolves a negative index from the right, hence `getLast?`). -/
def nstGo (reserve : ℕ) (cost : ℤ) : List (Window × List ℚ) → ℚ → Option ℚ
  | [], earliest => some earliest
  | (w, buf) :: rest, earliest =>
    let used : ℤ := buf.length
    let allowed : ℤ := max 0 (w.capacity - (reserve : ℤ))
    if cost ≤ 0 ∨ used + cost ≤ allowed then
      nstGo reserve cost rest earliest
    else
      let need : ℤ := min (used + cost - allowed) used
      let idx : ℤ := need - 1
      match (if idx < 0 then buf.getLast? else buf.get? idx.toNat) with
      | none => none
      | some tv =>
        let tExpire := tv + w.size_sec
        nstGo reserve cost rest (if earliest < tExpire then tExpire else earliest)

/-- `RateLimiter._next_safe_time(now, cost)` (the `earliest` accumulator
starts at `now`). -/
def nextSafeTime (st : RateLimiterState) (now : ℚ) (cost : ℤ) : Option ℚ :=
  nstGo st.reserve cost st.wins now

/-- The booking loop of `acquire`: `for buf in self._buffers: for _ in
range(cost): buf.append(now)`. -/
def book (now : ℚ) (cost : ℤ) (st : RateLimiterState) : RateLimiterState :=
  { st with wins := st.wins.map (fun p => (p.1, p.2 ++ List.replicate cost.toNat now)) }

/-- One observable step of `RateLimiter.acquire(cost)` at monotonic time
`now`: the `if cost < 1: return` guard, then one execution of the loop body
under the lock (`_prune`; `_next_safe_time`; book-and-return if
`t_safe <= now`, otherwise release the lock and sleep). -/
def acquireStep (st : RateLimiterState) (now : ℚ) (cost : ℤ) : AcquireOutcome :=
  if cost < 1 then .returned st
  else
    let st1 := prune now st
    match nextSafeTime st1 now cost with
    | none => .raised st1
    | some tSafe => if tSafe ≤ now then .returned (book now cost st1) else .blocked st1 tSafe

/-- `RateLimiter.__init__(per_second, per_minute, reserve, name)`.
`none` models Python `None`; a configured value of `0` is falsy in
`if per_second:` / `if per_minute:`, so it adds no window.  The only raise is
`ValueError` when both window arguments are `None`; `reserve` is clamped with
`max(0, int(reserve))` and is never compared with any capacity. -/
def rlInit (per_second per_minute : Option ℤ) (reserve : ℤ) (name : String) :
    Except String RateLimiterState :=
  if per_second = none ∧ per_minute = none then
    .error "At least one window must be configured"
  else
    let wins :=
      (match per_second with
       | some ps => if ps ≠ 0 then [({ size_sec := 1, capacity := ps } : Window)] else []
       | none => []) ++
      (match per_minute with
       | some pm => if pm ≠ 0 then [({ size_sec := 60, capacity := pm } : Window)] else []
       | none => [])
    .ok { name := name, reserve := reserve.toNat, wins := wins.map (fun w => (w, [])) }

/-- Number of unexpired booked timestamps of one window at time `now`: the
entries strictly newer than the pruning cutoff `now - size_sec`. -/
def unexpiredCount (now : ℚ) (w : Window) (buf : List ℚ) : ℕ :=
  (buf.filter (fun t => decide (now - w.size_sec < t))).length

/-- Whether an acquire step raised (the `IndexError` path). -/
def isRaised : AcquireOutcome → Bool
  | .raised _ => true
  | _ => false

/-- Boolean check that a buffer is in non-decreasing time order (true of every
buffer the limiter ever builds: entries are appended at the current monotonic
time and pruning only drops a leading segment). -/
def sortedLe : List ℚ → Bool
  | [] => true
  | [_] => true
  | a :: b :: t => decide (a ≤ b) && sortedLe (b :: t)

/-- `retry_with_backoff` recursion: `i` is the `for i in range(attempts)`
index, `last` the `last_exc` variable.  Result: `Except (Option E) A` paired
with the number of invocations of `call`; `.error (some e)` is
`raise last_exc` with `last_exc = e`, `.error none` the `assert last_exc is
not None` failure when `attempts = 0`.  The sleeps between attempts are
external to the model. -/
def retryGo (call : ℕ → Except E A) (attempts : ℕ) (i : ℕ) (last : Option E) :
    Except (Option E) A × ℕ :=
  if _h : i < attempts then
    match call i with
    | .ok v => (.ok v, i + 1)
    | .error e =>
      if i = attempts - 1 then (.error (some e), i + 1)
      else retryGo call attempts (i + 1) (some e)
  else (.error last, i)
termination_by attempts - i

/-- `retry_with_backoff(call, attempts=..)`: `call i` is the outcome of the
`i`-th invocation of the wrapped zero-argument callable. -/
def retry_with_backoff (call : ℕ → Except E A) (attempts : ℕ) : Except (Option E) A × ℕ :=
  retryGo call attempts 0 none

/-! ## quotes_agg.py -/

/-- A quote payload dict `{"open", "high", "low", "last", "volume"}` as
produced by the provider adapters and consumed by `_valid_bar` /
`pct_change_today` (`openp` stands for the key `"open"`, which is a Lean
keyword; `last` is the close price). -/
structure Quote where
  openp : ℚ
  high : ℚ
  low : ℚ
  last : ℚ
  volume : ℚ
deriving DecidableEq

/-- `_valid_bar(q)`: reject non-positive O/H/L/C, reject `l > h`, and require
span `(h - l) / o < 0.2` (the `if o else 0` guard is dead at that point since
`o > 0` already holds). -/
def valid_bar (q : Quote) : Bool :=
  if q.openp ≤ 0 ∨ q.high ≤ 0 ∨ q.low ≤ 0 ∨ q.last ≤ 0 then false
  else if q.low > q.high then false
  else
    let span : ℚ := if q.openp ≠ 0 then (q.high - q.low) / q.openp else 0
    decide (span < 1 / 5)

/-- Raw finnhub quote dict as `_from_finnhub` reads it: keys `o/h/l/c/v`,
each possibly missing or `None` (the code reads them as
`float(q.get(k) or 0.0)`, and `v` the same way guarded by `"v" in q`;
in every case a missing/`None`/zero entry becomes `0.0`). -/
structure FhRaw where
  o : Option ℚ
  h : Option ℚ
  l : Option ℚ
  c : Option ℚ
  v : Option ℚ
deriving DecidableEq

/-- The `out = {...}` conversion in `_from_finnhub`. -/
def fh_to_quote (raw : FhRaw) : Quote :=
  { openp := raw.o.getD 0, high := raw.h.getD 0, low := raw.l.getD 0,
    last := raw.c.getD 0, volume := raw.v.getD 0 }

/-- A `_PULL_LOG` entry `{"symbol", "provider", "ok", "note"}` (`ok` is the
`int(bool(ok))` flag; `latency_ms` is wall-clock time, external to the pure
model and omitted). -/
structure PullLogEntry where
  symbol : String
  provider : String
  ok : Bool
  note : String
deriving DecidableEq

/-- The module-level mutable state of `quotes_agg.py`: `_MEMO` (symbol →
validated quote or the `None` absence sentinel; dict assignment is modelled
by consing, lookup by first match) and `_PULL_LOG` (append-only list). -/
structure AggState where
  memo : List (String × Option Quote)
  pull_log : List PullLogEntry
deriving DecidableEq

/-- Python `str.strip()`: drop leading and trailing whitespace (implemented
directly on the character list so it is kernel-computable). -/
def pyStrip (s : String) : String :=
  ⟨((s.data.dropWhile Char.isWhitespace).reverse.dropWhile Char.isWhitespace).reverse⟩

/-- Python `str.upper()` (ASCII, as used on ticker symbols). -/
def pyUpper (s : String) : String := ⟨s.data.map Char.toUpper⟩

/-- Python `str.lower()` (ASCII, as used on provider names). -/
def pyLower (s : String) : String := ⟨s.data.map Char.toLower⟩

/-- Python `str.split(",")`: split at every comma, keeping empty pieces
(`acc` holds the current piece reversed). -/
def pySplitComma : List Char → List Char → List String
  | [], acc => [⟨acc.reverse⟩]
  | c :: rest, acc =>
    if c = ',' then ⟨acc.reverse⟩ :: pySplitComma rest []
    else pySplitComma rest (c :: acc)

/-- `symbol.upper().strip()` as used by `fetch_quote_basic` and `_log`. -/
def pyNormSym (s : String) : String := pyStrip (pyUpper s)

/-- `_log(symbol, provider, ok)` (with the default empty `note`): appends one
entry, normalising the symbol again. -/
def log_append (st : AggState) (symbol provider : String) (ok : Bool) : AggState :=
  { st with pull_log := st.pull_log ++ [⟨pyNormSym symbol, provider, ok, ""⟩] }

/-- `s in _MEMO` / `_MEMO[s]` on the assoc-list model of the dict. -/
def memoLookup (m : List (String × Option Quote)) (s : String) : Option (Option Quote) :=
  (m.find? (fun p => p.1 == s)).map (fun p => p.2)

/-- Environment of one `fetch_quote_basic` call for a fixed symbol: whether
`set_registry` was called (`_REG is not None`), and the behaviour of each
provider adapter for that symbol.  `Except.error ()` means the adapter call
raises (none of `fh_quote`, `_yd`, `_yf`, `_stq` is wrapped in a
`try/except` inside `quotes_agg.py`); `.ok none` a falsy/absent payload;
`.ok (some q)` a returned payload. -/
structure QuotesEnv where
  regSet : Bool
  finnhub : Except Unit (Option FhRaw)
  yahoo_direct : Except Unit (Option Quote)
  yfinance : Except Unit (Option Quote)
  stooq : Except Unit (Option Quote)

/-- `_from_finnhub(sym)`: returns the outcome, the updated state and the
number of provider-adapter invocations.  With no registry it returns `None`
without calling or logging anything; otherwise it converts, validates and
logs (an adapter exception propagates before any logging). -/
def from_finnhub (env : QuotesEnv) (s : String) (st : AggState) :
    Except Unit (Option Quote) × AggState × ℕ :=
  if env.regSet = false then (.ok none, st, 0)
  else
    match env.finnhub with
    | .error e => (.error e, st, 1)
    | .ok none => (.ok none, log_append st s "finnhub" false, 1)
    | .ok (some raw) =>
      let out := fh_to_quote raw
      let ok := valid_bar out
      (.ok (if ok then some out else none), log_append st s "finnhub" ok, 1)

/-- `fetch_quote_basic(symbol)`: memo lookup, then the provider chain
finnhub → yahoo_direct → yfinance → stooq with `bool(q and _valid_bar(q))`
gating, memoising the first valid payload (or the absence sentinel), logging
each non-raising attempt.  Returns the outcome, the updated module state and
the number of provider-adapter invocations. -/
def fetch_quote_basic (env : QuotesEnv) (symbol : String) (st : AggState) :
    Except Unit (Option Quote) × AggState × ℕ :=
  let s := pyNormSym symbol
  match memoLookup st.memo s with
  | some v => (.ok v, st, 0)
  | none =>
    match from_finnhub env s st with
    | (.error e, st1, n1) => (.error e, st1, n1)
    | (.ok (some q), st1, n1) => (.ok (some q), { st1 with memo := (s, some q) :: st1.memo }, n1)
    | (.ok none, st1, n1) =>
      match env.yahoo_direct with
      | .error e => (.error e, st1, n1 + 1)
      | .ok q1 =>
        let ok1 := match q1 with | some q => valid_bar q | none => false
        let st2 := log_append st1 s "yahoo_direct" ok1
        if ok1 then (.ok q1, { st2 with memo := (s, q1) :: st2.memo }, n1 + 1)
        else
          match env.yfinance with
          | .error e => (.error e, st2, n1 + 2)
          | .ok q2 =>
            let ok2 := match q2 with | some q => valid_bar q | none => false
            let st3 := log_append st2 s "yfinance" ok2
            if ok2 then (.ok q2, { st3 with memo := (s, q2) :: st3.memo }, n1 + 2)
            else
              match env.stooq with
              | .error e => (.error e, st3, n1 + 3)
              | .ok q3 =>
                let ok3 := match q3 with | some q => valid_bar q | none => false
                let st4 := log_append st3 s "stooq" ok3
                if ok3 then (.ok q3, { st4 with memo := (s, q3) :: st4.memo }, n1 + 3)
                else (.ok none, { st4 with memo := (s, none) :: st4.memo }, n1 + 3)

/-- `pct_change_today(symbol)`: runs `fetch_quote_basic`; `0.0` for an absent
record, `0.0` when `o == 0.0`, otherwise `(c / o - 1.0) * 100.0`.  A raise
inside the fetch propagates. -/
def pct_change_today (env : QuotesEnv) (symbol : String) (st : AggState) :
    Except Unit ℚ × AggState × ℕ :=
  match fetch_quote_basic env symbol st with
  | (.error e, st1, n) => (.error e, st1, n)
  | (.ok none, st1, n) => (.ok 0, st1, n)
  | (.ok (some q), st1, n) =>
    if q.openp = 0 then (.ok 0, st1, n) else (.ok ((q.last / q.openp - 1) * 100), st1, n)

/-- Well-formedness of the memo map: every memoised success passed
`_valid_bar` (true of every state `fetch_quote_basic` ever builds: only
validated payloads or the absence sentinel are stored). -/
def memoWFb (m : List (String × Option Quote)) : Bool :=
  m.all (fun p => match p.2 with | some q => valid_bar q | none => true)

/-! ## fetchers.py -/

/-- Python `a or b` on an optional environment-variable string (`None` and
`""` are falsy). -/
def pyOrStr (a : Option String) (b : String) : String :=
  match a with
  | some s => if s = "" then b else s
  | none => b

/-- The generator `(x.strip().lower() for x in order.split(",") if
x.strip())` in `_resolve_providers`. -/
def parse_names (order : String) : List String :=
  (pySplitComma order.data []).filterMap
    (fun x => if pyStrip x = "" then none else some (pyLower (pyStrip x)))

/-- The `name_to_fn` dict of `_resolve_providers`: built by iterating the
default list, so a duplicated name keeps its last binding (hence `find?` on
the reversed list); the stored value is the `(name, fn)` pair itself. -/
def name_to_fn (default_list : List (String × α)) (n : String) : Option (String × α) :=
  default_list.reverse.find? (fun p => p.1 == n)

/-- `_resolve_providers(factor, default_list)` with the two environment
variables abstracted as inputs: `perFactor` is `os.getenv("ETS_<FACTOR>_PROVIDERS")`,
`glob` is `os.getenv("ETS_PROVIDERS")`. -/
def resolve_providers (perFactor glob : Option String) (default_list : List (String × α)) :
    List (String × α) :=
  let order := pyStrip (pyOrStr perFactor (pyOrStr glob ""))
  if order = "" then default_list
  else
    let out := (parse_names order).filterMap (name_to_fn default_list)
    if out.isEmpty then default_list else out

/-- The provider loop of `fetch_factor`: `reg name` is the truthiness of
`getattr(registry, name, None)` (a falsy registry entry is skipped without
being attempted); `outcome k` is the overall result of the `k`-th
`retry_with_backoff(_do, ...)` call made by the loop — `.error ()` a hard
failure after retries (caught, advance), `.ok none` a falsy payload
(advance), `.ok (some out)` a truthy payload (returned).  The
`lim.acquire(cost)` call only blocks and does not affect this result.
Returns the payload (or `none` after full-chain exhaustion) and the names of
the providers actually attempted, in order. -/
def fetch_factor_go (reg : String → Bool) (outcome : ℕ → Except Unit (Option β)) :
    List (String × α) → ℕ → Option β × List String
  | [], _ => (none, [])
  | (name, _fn) :: rest, k =>
    if reg name then
      match outcome k with
      | .ok (some out) => (some out, [name])
      | .ok none =>
        let r := fetch_factor_go reg outcome rest (k + 1)
        (r.1, name :: r.2)
      | .error _ =>
        let r := fetch_factor_go reg outcome rest (k + 1)
        (r.1, name :: r.2)
    else fetch_factor_go reg outcome rest k

/-- `fetch_factor(registry, factor, symbol)` for a factor whose policy holds
`default_list`: it resolves the provider order with `_resolve_providers` and
runs the provider loop. -/
def fetch_factor (reg : String → Bool) (outcome : ℕ → Except Unit (Option β))
    (perFactor glob : Option String) (default_list : List (String × α)) :
    Option β × List String :=
  fetch_factor_go reg outcome (resolve_providers perFactor glob default_list) 0

/-! ## Sample values used by witnesses and counterexamples -/

/-- The spec's passing concrete quote `{open:100, high:101, low:99,
close:100.5, volume:1000}`. -/
def qGood : Quote := { openp := 100, high := 101, low := 99, last := 201 / 2, volume := 1000 }

/-- The spec's failing concrete quote (`open = 0`). -/
def qBadOpen : Quote := { openp := 0, high := 101, low := 99, last := 201 / 2, volume := 1000 }

/-- Fetch environment in which the finnhub adapter raises while yahoo_direct
would answer a valid quote. -/
def envRaisingFinnhub : QuotesEnv :=
  { regSet := true, finnhub := .error (), yahoo_direct := .ok (some qGood),
    yfinance := .ok none, stooq := .ok none }

/-- Fetch environment in which every provider comes back empty (no registry,
and every adapter returns a falsy payload). -/
def envAllMiss : QuotesEnv :=
  { regSet := false, finnhub := .ok none, yahoo_direct := .ok none,
    yfinance := .ok none, stooq := .ok none }

/-- Fetch environment for the fallback scenario: finnhub returns nothing,
yahoo_direct returns a valid quote. -/
def envFallback : QuotesEnv :=
  { regSet := true, finnhub := .ok none, yahoo_direct := .ok (some qGood),
    yfinance := .ok none, stooq := .ok none }

/-- The initial module state: empty memo, empty pull log. -/
def emptyAgg : AggState := { memo := [], pull_log := [] }

/-! ## Helper lemmas -/

/-- `valid_bar` unfolded to the six-conjunct acceptance condition. -/
theorem valid_bar_iff (q : Quote) :
    valid_bar q = true ↔
      (0 < q.openp ∧ 0 < q.high ∧ 0 < q.low ∧ 0 < q.last ∧ q.low ≤ q.high ∧
        (q.high - q.low) / q.openp < 1 / 5) := by
  unfold valid_bar
  split_ifs with h1 h2 h3
  · simp only [Bool.false_eq_true, false_iff]
    rintro ⟨ho, hh, hl, hc, -, -⟩
    rcases h1 with h | h | h | h <;> linarith
  · simp only [Bool.false_eq_true, false_iff]
    rintro ⟨-, -, -, -, hlh, -⟩
    exact absurd hlh (not_le.mpr h2)
  · rw [decide_eq_true_eq]
    push_neg at h1
    obtain ⟨ho, hh, hl, hc⟩ := h1
    exact ⟨fun hs => ⟨ho, hh, hl, hc, not_lt.mp h2, hs⟩, fun h => h.2.2.2.2.2⟩
  · push_neg at h1
    exact absurd (not_not.mp h3) (ne_of_gt h1.1)

/-! ## Claim theorems -/

/-- C10: for every `RateLimiter` state and every `cost ≤ 0`, `acquire(cost)`
returns immediately (the `if cost < 1: return` guard) without sleeping and
without booking or pruning anything: the state after the call is exactly the
state before it. -/
theorem acquire_nonpos_cost_noop (st : RateLimiterState) (now : ℚ) (cost : ℤ)
    (h : cost ≤ 0) : acquireStep st now cost = .returned st := by
  unfold acquireStep
  rw [if_pos (by omega)]

/-- Witness for C10 at a concrete limiter state and `cost = 0`. -/
theorem acquire_nonpos_cost_noop_w :
    acquireStep { name := "limiter", reserve := 0,
                  wins := [({ size_sec := 1, capacity := 5 }, [3])] } 10 0
      = .returned { name := "limiter", reserve := 0,
                    wins := [({ size_sec := 1, capacity := 5 }, [3])] } :=
  acquire_nonpos_cost_noop _ _ _ (by decide)

/-- C6: the validator accepts a quote iff `open > 0 ∧ high > 0 ∧ low > 0 ∧
close > 0 ∧ low ≤ high ∧ (high − low)/open < 0.2`; in particular the spec's
concrete quote `{open:100, high:101, low:99, close:100.5, volume:1000}` is
accepted and the same quote with `open:0` is rejected. -/
theorem valid_bar_spec :
    (∀ q : Quote, valid_bar q = true ↔
      (0 < q.openp ∧ 0 < q.high ∧ 0 < q.low ∧ 0 < q.last ∧ q.low ≤ q.high ∧
        (q.high - q.low) / q.openp < 1 / 5))
    ∧ valid_bar qGood = true ∧ valid_bar qBadOpen = false := by
  refine ⟨valid_bar_iff, ?_, ?_⟩
  · rw [valid_bar_iff]
    norm_num [qGood]
  · rw [Bool.eq_false_iff]
    intro h
    rw [valid_bar_iff] at h
    norm_num [qBadOpen] at h

/-- C3 counterexample: the constructor accepts `per_second=5, reserve=7`
(reserve ≥ capacity) and returns a limiter instead of raising; the only
construction-time check is that at least one window is configured. -/
theorem rlInit_accepts_reserve_ge_capacity :
    rlInit (some 5) none 7 "limiter"
      = .ok { name := "limiter", reserve := 7,
              wins := [({ size_sec := 1, capacity := 5 }, [])] } := by
  rfl

/-- C3 amended: construction fails (with the `ValueError`) exactly when
neither window argument is supplied; any `reserve` — in particular one at or
above every capacity — is accepted. -/
theorem rlInit_error_iff (ps pm : Option ℤ) (r : ℤ) (n : String) :
    (ps = none ∧ pm = none → rlInit ps pm r n = .error "At least one window must be configured")
    ∧ (ps ≠ none ∨ pm ≠ none → ∃ st, rlInit ps pm r n = .ok st) := by
  constructor
  · intro h
    unfold rlInit
    rw [if_pos h]
  · intro h
    unfold rlInit
    rw [if_neg (by rintro ⟨h1, h2⟩; rcases h with h | h; exact h h1; exact h h2)]
    exact ⟨_, rfl⟩

/-- Witness for C3 amended: a limiter with only `per_second` configured is
constructed successfully. -/
theorem rlInit_error_iff_w : ∃ st, rlInit (some 3) none 10 "x" = .ok st :=
  (rlInit_error_iff (some 3) none 10 "x").2 (Or.inl (by simp))

/-- C4: once the memo holds an outcome for the (normalised) symbol,
`fetch_quote_basic` returns that cached outcome with the module state
unchanged (no new pull-log entry) and zero provider-adapter invocations. -/
theorem fetch_quote_basic_memo_hit (env : QuotesEnv) (symbol : String) (st : AggState)
    (v : Option Quote) (h : memoLookup st.memo (pyNormSym symbol) = some v) :
    fetch_quote_basic env symbol st = (.ok v, st, 0) := by
  simp only [fetch_quote_basic, h]

/-- Witness for C4: a concrete memo hit returns the cached quote with no
provider calls. -/
theorem fetch_quote_basic_memo_hit_w :
    fetch_quote_basic
        { regSet := false, finnhub := .ok none, yahoo_direct := .ok none,
          yfinance := .ok none, stooq := .ok none } "AAPL"
        { memo := [(pyNormSym "AAPL", some qGood)], pull_log := [] }
      = (.ok (some qGood), { memo := [(pyNormSym "AAPL", some qGood)], pull_log := [] }, 0) :=
  fetch_quote_basic_memo_hit _ _ _ _ (by simp [memoLookup, List.find?])

/-! ## Rate limiter helper lemmas -/

/-- Tail of a sorted buffer is sorted. -/
theorem sortedLe_tail {a : ℚ} {t : List ℚ} (h : sortedLe (a :: t) = true) :
    sortedLe t = true := by
  cases t with
  | nil => rfl
  | cons b t2 =>
    simp only [sortedLe, Bool.and_eq_true] at h
    exact h.2

/-- In a sorted buffer the head bounds every later entry. -/
theorem sortedLe_head_le {a x : ℚ} {t : List ℚ} (h : sortedLe (a :: t) = true)
    (hx : x ∈ t) : a ≤ x := by
  induction t generalizing a with
  | nil => cases hx
  | cons b t2 ih =>
    simp only [sortedLe, Bool.and_eq_true, decide_eq_true_eq] at h
    rcases List.mem_cons.mp hx with rfl | hx2
    · exact h.1
    · exact le_trans h.1 (ih (by simpa [sortedLe, Bool.and_eq_true] using h.2) hx2)

/-- Pruning a sorted buffer leaves only entries strictly newer than the
cutoff. -/
theorem dropWhile_cutoff {c : ℚ} {l : List ℚ} (h : sortedLe l = true) :
    ∀ x ∈ l.dropWhile (fun t => decide (t ≤ c)), c < x := by
  induction l with
  | nil => intro x hx; cases hx
  | cons a t ih =>
    intro x hx
    rw [List.dropWhile_cons] at hx
    split at hx
    · exact ih (sortedLe_tail h) x hx
    · next hcond =>
      have ha : c < a := by simpa using hcond
      rcases List.mem_cons.mp hx with rfl | hx2
      · exact ha
      · exact lt_of_lt_of_le ha (sortedLe_head_le h hx2)

/-- A `getLast?` hit is a member of the list. -/
theorem mem_of_getLast?_eq_some {l : List ℚ} {a : ℚ} (h : l.getLast? = some a) :
    a ∈ l := by
  obtain ⟨hh, rfl⟩ := @List.mem_getLast?_eq_getLast ℚ l a h
  exact List.getLast_mem hh

/-- `_next_safe_time` never moves `earliest` backwards. -/
theorem nstGo_le (res : ℕ) (cost : ℤ) :
    ∀ (wins : List (Window × List ℚ)) (e t : ℚ), nstGo res cost wins e = some t → e ≤ t := by
  intro wins
  induction wins with
  | nil =>
    intro e t h
    simp only [nstGo, Option.some.injEq] at h
    exact le_of_eq h
  | cons pr rest ih =>
    intro e t h
    obtain ⟨w, buf⟩ := pr
    simp only [nstGo] at h
    split at h
    · exact ih e t h
    · split at h
      · exact absurd h (by simp)
      · next tv heq =>
        have h2 := ih _ t h
        by_cases hlt : e < tv + w.size_sec
        · rw [if_pos hlt] at h2
          exact le_trans (le_of_lt hlt) h2
        · rw [if_neg hlt] at h2
          exact h2

/-- If every window still has `cost` tokens of headroom below
`capacity − reserve`, `_next_safe_time` cannot hit the `IndexError`. -/
theorem nstGo_isSome (res : ℕ) (cost : ℤ) :
    ∀ (wins : List (Window × List ℚ)) (e : ℚ),
      (∀ p ∈ wins, cost ≤ p.1.capacity - (res : ℤ)) →
      nstGo res cost wins e ≠ none := by
  intro wins
  induction wins with
  | nil => intro e _ h; simp [nstGo] at h
  | cons pr rest ih =>
    intro e hcap
    obtain ⟨w, buf⟩ := pr
    simp only [nstGo]
    split
    · exact ih e (fun q hq => hcap q (List.mem_cons_of_mem _ hq))
    · next hcond =>
      push_neg at hcond
      obtain ⟨hc0, hlt⟩ := hcond
      have hw : cost ≤ w.capacity - (res : ℤ) := hcap (w, buf) (List.mem_cons_self _ _)
      have hallowed : cost ≤ max 0 (w.capacity - (res : ℤ)) :=
        le_trans hw (le_max_right _ _)
      rw [if_neg (by omega)]
      have hlen : (min ((buf.length : ℤ) + cost - max 0 (w.capacity - (res : ℤ)))
          (buf.length : ℤ) - 1).toNat < buf.length := by omega
      rw [List.get?_eq_get hlen]
      exact ih _ (fun q hq => hcap q (List.mem_cons_of_mem _ hq))

/-- When `_next_safe_time` answers a time not in the future, every window
had room: `used + cost ≤ max(0, capacity − reserve)` — provided every
remaining buffer entry is strictly newer than its window's cutoff (what
`_prune` guarantees on time-ordered buffers). -/
theorem nstGo_returned_bound (res : ℕ) (cost : ℤ) (now : ℚ) (hc : 1 ≤ cost) :
    ∀ (wins : List (Window × List ℚ)) (e t : ℚ),
      (∀ p ∈ wins, ∀ x ∈ p.2, now - p.1.size_sec < x) →
      nstGo res cost wins e = some t → t ≤ now →
      ∀ p ∈ wins, (p.2.length : ℤ) + cost ≤ max 0 (p.1.capacity - (res : ℤ)) := by
  intro wins
  induction wins with
  | nil => intro e t _ _ _ p hp; cases hp
  | cons pr rest ih =>
    intro e t hcut hgo ht p hp
    obtain ⟨w, buf⟩ := pr
    simp only [nstGo] at hgo
    split at hgo
    · next hcond =>
      rcases List.mem_cons.mp hp with rfl | hp2
      · rcases hcond with h0 | hle
        · exact absurd h0 (by omega)
        · exact hle
      · exact ih e t (fun q hq x hx => hcut q (List.mem_cons_of_mem _ hq) x hx) hgo ht p hp2
    · split at hgo
      · exact absurd hgo (by simp)
      · next tv heq =>
        have htv : tv ∈ buf := by
          split at heq
          · exact mem_of_getLast?_eq_some heq
          · exact List.get?_mem heq
        have h1 : now - w.size_sec < tv := hcut (w, buf) (List.mem_cons_self _ _) tv htv
        have h2 := nstGo_le res cost rest _ t hgo
        have h3 : tv + w.size_sec ≤ t := by
          refine le_trans ?_ h2
          by_cases hlt : e < tv + w.size_sec
          · rw [if_pos hlt]
          · rw [if_neg hlt]
            exact le_of_not_lt hlt
        linarith

/-- C1 counterexample: the claim fails as stated when `cost ≤ 0` meets a
constructible limiter with `reserve > capacity`.  `RateLimiter(per_second=1,
reserve=3)` is accepted by the constructor; `acquire(0)` returns immediately,
and right after it returns the per-second window has `used = 0`, which is not
`≤ capacity − reserve = -2`. -/
theorem acquire_invariant_cex :
    rlInit (some 1) none 3 "limiter"
        = .ok { name := "limiter", reserve := 3,
                wins := [({ size_sec := 1, capacity := 1 }, [])] }
    ∧ acquireStep { name := "limiter", reserve := 3,
                    wins := [({ size_sec := 1, capacity := 1 }, [])] } 0 0
        = .returned { name := "limiter", reserve := 3,
                      wins := [({ size_sec := 1, capacity := 1 }, [])] }
    ∧ ¬ ((unexpiredCount 0 { size_sec := 1, capacity := 1 } [] : ℤ)
          ≤ (1 : ℤ) - ((3 : ℕ) : ℤ)) :=
  ⟨by rfl, by rfl, by decide⟩

/-- C1 amended: for every limiter state with time-ordered buffers and every
`cost ≥ 1`, whenever `acquire(cost)` returns, every window of the resulting
state has `used ≤ capacity − reserve` (`used` = unexpired booked timestamps
at the return instant). -/
theorem acquire_returned_used_le (st : RateLimiterState) (now : ℚ) (cost : ℤ)
    (st2 : RateLimiterState) (hc : 1 ≤ cost)
    (hs : ∀ p ∈ st.wins, sortedLe p.2 = true)
    (hret : acquireStep st now cost = .returned st2) :
    ∀ p ∈ st2.wins, (unexpiredCount now p.1 p.2 : ℤ) ≤ p.1.capacity - (st2.reserve : ℤ) := by
  simp only [acquireStep] at hret
  rw [if_neg (by omega)] at hret
  split at hret
  · exact absurd hret (by simp)
  · next tSafe hnst =>
    split at hret
    · next hts =>
      have hst2 : st2 = book now cost (prune now st) := by
        cases hret; rfl
      subst hst2
      have hcut : ∀ p ∈ (prune now st).wins, ∀ x ∈ p.2, now - p.1.size_sec < x := by
        intro p hp x hx
        simp only [prune, List.mem_map] at hp
        obtain ⟨q, hq, rfl⟩ := hp
        exact dropWhile_cutoff (hs q hq) x hx
      have hnst2 : nstGo st.reserve cost (prune now st).wins now = some tSafe := hnst
      have hbound := nstGo_returned_bound st.reserve cost now hc
        (prune now st).wins now tSafe hcut hnst2 hts
      intro p hp
      simp only [book, List.mem_map] at hp
      obtain ⟨q, hq, rfl⟩ := hp
      have hb := hbound q hq
      have h1 : (unexpiredCount now q.1 (q.2 ++ List.replicate cost.toNat now) : ℤ)
          ≤ (q.2.length : ℤ) + cost := by
        have hlen : unexpiredCount now q.1 (q.2 ++ List.replicate cost.toNat now)
            ≤ q.2.length + cost.toNat := by
          have hf := List.length_filter_le (fun t => decide (now - q.1.size_sec < t))
              (q.2 ++ List.replicate cost.toNat now)
          simpa [unexpiredCount, List.length_append] using hf
        omega
      rcases le_or_lt (q.1.capacity - (st.reserve : ℤ)) 0 with hx | hx
      · rw [max_eq_left hx] at hb
        exfalso; omega
      · rw [max_eq_right (le_of_lt hx)] at hb
        simp only [book, prune]
        omega
    · exact absurd hret (by simp)

/-- Witness for C1 amended: a fresh `per_second=2, reserve=0` limiter after
one `acquire(1)` at time `0` satisfies the window bound. -/
theorem acquire_returned_used_le_w :
    (unexpiredCount 0 { size_sec := 1, capacity := 2 } [(0 : ℚ)] : ℤ) ≤ (2 : ℤ) - ((0 : ℕ) : ℤ) :=
  acquire_returned_used_le
    { name := "limiter", reserve := 0, wins := [({ size_sec := 1, capacity := 2 }, [])] }
    0 1
    { name := "limiter", reserve := 0, wins := [({ size_sec := 1, capacity := 2 }, [(0 : ℚ)])] }
    (by decide) (by decide) (by rfl)
    ({ size_sec := 1, capacity := 2 }, [(0 : ℚ)]) (by decide)

/-- C2 counterexample: `RateLimiter(per_second=1)` with the default
`reserve=2` is accepted by the constructor, yet `acquire(1)` raises an
`IndexError` (in `_next_safe_time`, `need_to_expire` is clamped to
`len(buf) = 0`, so `buf[-1]` indexes an empty deque). -/
theorem acquire_raises_cex :
    rlInit (some 1) none 2 "limiter"
        = .ok { name := "limiter", reserve := 2,
                wins := [({ size_sec := 1, capacity := 1 }, [])] }
    ∧ acquireStep { name := "limiter", reserve := 2,
                    wins := [({ size_sec := 1, capacity := 1 }, [])] } 0 1
        = .raised { name := "limiter", reserve := 2,
                    wins := [({ size_sec := 1, capacity := 1 }, [])] } :=
  ⟨by rfl, by rfl⟩

/-- C2 amended: `acquire(cost)` never raises provided every configured
window keeps `cost` within `capacity − reserve`; under that headroom
condition every step of the acquire loop either returns or blocks, at any
instant and from any buffer contents. -/
theorem acquire_no_raise_of_headroom (st : RateLimiterState) (now : ℚ) (cost : ℤ)
    (h : ∀ p ∈ st.wins, cost ≤ p.1.capacity - (st.reserve : ℤ)) :
    isRaised (acquireStep st now cost) = false := by
  have hne : nextSafeTime (prune now st) now cost ≠ none := by
    have hcap : ∀ p ∈ (prune now st).wins, cost ≤ p.1.capacity - ((prune now st).reserve : ℤ) := by
      intro p hp
      simp only [prune, List.mem_map] at hp
      obtain ⟨q, hq, rfl⟩ := hp
      exact h q hq
    exact nstGo_isSome (prune now st).reserve cost (prune now st).wins now hcap
  simp only [acquireStep]
  split
  · rfl
  · split
    · next heq => exact absurd heq hne
    · next t heq =>
      split
      · rfl
      · rfl

/-- Witness for C2 amended: a fresh `per_second=2, reserve=0` limiter never
raises on `acquire(1)`. -/
theorem acquire_no_raise_of_headroom_w :
    isRaised (acquireStep ({ name := "limiter", reserve := 0, wins := [({ size_sec := 1, capacity := 2 }, [])] } : RateLimiterState) 5 1) = false :=
  acquire_no_raise_of_headroom _ _ _ (by decide)

/-! ## Retry helper lemmas -/

/-- If every attempt from index `i` up to `attempts` fails, the retry loop
runs them all and re-raises the last exception. -/
theorem retryGo_all_fail (call : ℕ → Except E A) (es : ℕ → E) (n : ℕ) :
    ∀ (k i : ℕ) (last : Option E), n - i = k → i < n →
      (∀ j, i ≤ j → j < n → call j = .error (es j)) →
      retryGo call n i last = (.error (some (es (n - 1))), n) := by
  intro k
  induction k with
  | zero => intro i last hk hi _; omega
  | succ k ih =>
    intro i last hk hi hall
    unfold retryGo
    rw [dif_pos hi]
    simp only [hall i le_rfl hi]
    by_cases hlast : i = n - 1
    · rw [if_pos hlast]
      subst hlast
      have : n - 1 + 1 = n := by omega
      rw [this]
    · rw [if_neg hlast]
      exact ih (i + 1) (some (es i)) (by omega) (by omega)
        (fun j hj1 hj2 => hall j (by omega) hj2)

/-- If attempt `k` succeeds and all attempts before it fail, the retry loop
returns that value after exactly `k + 1` invocations. -/
theorem retryGo_success (call : ℕ → Except E A) (es : ℕ → E) (n : ℕ) (k : ℕ) (v : A)
    (hk : k < n) (hkv : call k = .ok v) :
    ∀ (m i : ℕ) (last : Option E), k - i = m → i ≤ k →
      (∀ j, i ≤ j → j < k → call j = .error (es j)) →
      retryGo call n i last = (.ok v, k + 1) := by
  intro m
  induction m with
  | zero =>
    intro i last hm hi _
    have hik : i = k := by omega
    subst hik
    unfold retryGo
    rw [dif_pos (by omega)]
    simp only [hkv]
  | succ m ih =>
    intro i last hm hi hpre
    have hik : i < k := by omega
    unfold retryGo
    rw [dif_pos (by omega)]
    simp only [hpre i le_rfl hik]
    rw [if_neg (by omega)]
    exact ih (i + 1) (some (es i)) (by omega) (by omega)
      (fun j hj1 hj2 => hpre j (by omega) hj2)

/-- C7: for `attempts = n ≥ 1`, if every invocation of the wrapped call
raises then `retry_with_backoff` invokes it exactly `n` times and re-raises
the exception of the last attempt; and if attempt `k` (all earlier ones
failing) returns a value, that value is returned after exactly `k + 1`
invocations, with no further attempt. -/
theorem retry_with_backoff_spec (call : ℕ → Except E A) (es : ℕ → E) (n : ℕ) (hn : 1 ≤ n) :
    ((∀ i, i < n → call i = .error (es i)) →
      retry_with_backoff call n = (.error (some (es (n - 1))), n))
    ∧ (∀ k v, k < n → (∀ i, i < k → call i = .error (es i)) → call k = .ok v →
      retry_with_backoff call n = (.ok v, k + 1)) := by
  constructor
  · intro hall
    exact retryGo_all_fail call es n (n - 0) 0 none rfl (by omega)
      (fun j _ hj => hall j hj)
  · intro k v hk hpre hkv
    exact retryGo_success call es n k v hk hkv (k - 0) 0 none rfl (by omega)
      (fun j _ hj => hpre j hj)

/-- Witness for C7: three attempts that all raise are all invoked, and the
last exception is re-raised. -/
theorem retry_with_backoff_spec_w :
    retry_with_backoff (fun i => (.error i : Except ℕ ℕ)) 3 = (.error (some 2), 3) :=
  (retry_with_backoff_spec (fun i => (.error i : Except ℕ ℕ)) (fun i => i) 3 (by decide)).1
    (fun i _ => rfl)

/-- C5 counterexample: the claim covers a first provider that *raises*, but
`fetch_quote_basic` catches nothing — with the registry set and `fh_quote`
raising, the exception propagates out of `fetch_quote_basic`: it does not
return yahoo_direct's valid payload, and no pull-log entry is written at
all. -/
theorem fetch_quote_basic_fallback_cex :
    fetch_quote_basic envRaisingFinnhub "AAPL" emptyAgg = (.error (), emptyAgg, 1)
    ∧ ((.error () : Except Unit (Option Quote)) ≠ .ok (some qGood)) :=
  ⟨by rfl, by intro h; cases h⟩

/-- C5 amended: if the first provider (finnhub, with the registry set) fails
*without raising* — it returns nothing, or returns a payload the validator
rejects — and yahoo_direct returns a validator-accepted payload, then
`fetch_quote_basic` returns yahoo_direct's payload, memoizes it, performs no
later provider call (exactly 2 adapter invocations), and the pull log gains
exactly one failed finnhub entry followed by one successful yahoo_direct
entry. -/
theorem fetch_quote_basic_fallback (env : QuotesEnv) (symbol : String) (st : AggState)
    (q : Quote)
    (hreg : env.regSet = true)
    (hmiss : memoLookup st.memo (pyNormSym symbol) = none)
    (hfh : env.finnhub = .ok none ∨
      ∃ raw, env.finnhub = .ok (some raw) ∧ valid_bar (fh_to_quote raw) = false)
    (hyd : env.yahoo_direct = .ok (some q))
    (hq : valid_bar q = true) :
    fetch_quote_basic env symbol st =
      (.ok (some q),
       { memo := (pyNormSym symbol, some q) :: st.memo,
         pull_log := st.pull_log ++
           [⟨pyNormSym (pyNormSym symbol), "finnhub", false, ""⟩,
            ⟨pyNormSym (pyNormSym symbol), "yahoo_direct", true, ""⟩] },
       2) := by
  have hfh1 : from_finnhub env (pyNormSym symbol) st
      = (.ok none, log_append st (pyNormSym symbol) "finnhub" false, 1) := by
    rcases hfh with h | ⟨raw, h, hv⟩
    · simp [from_finnhub, hreg, h]
    · simp [from_finnhub, hreg, h, hv]
  simp only [fetch_quote_basic, hmiss, hfh1, hyd, hq, if_true]
  simp [log_append, List.append_assoc]

/-- Witness for C5 amended: concrete fallback run — finnhub empty,
yahoo_direct valid — returns the yahoo_direct payload with the two expected
log entries and exactly two adapter invocations. -/
theorem fetch_quote_basic_fallback_w :
    fetch_quote_basic envFallback "AAPL" emptyAgg =
      (.ok (some qGood),
       { memo := [(pyNormSym "AAPL", some qGood)],
         pull_log := [⟨pyNormSym (pyNormSym "AAPL"), "finnhub", false, ""⟩,
                      ⟨pyNormSym (pyNormSym "AAPL"), "yahoo_direct", true, ""⟩] },
       2) :=
  fetch_quote_basic_fallback envFallback "AAPL" emptyAgg qGood rfl rfl (Or.inl rfl) rfl
    (by rw [valid_bar_iff]; norm_num [qGood])

/-! ## Validity of fetched records -/

/-- `_from_finnhub` only hands back validator-accepted quotes. -/
theorem from_finnhub_valid (env : QuotesEnv) (s : String) (st : AggState) (q : Quote)
    (st1 : AggState) (n : ℕ)
    (h : from_finnhub env s st = (.ok (some q), st1, n)) : valid_bar q = true := by
  simp only [from_finnhub] at h
  split at h
  · simp at h
  · split at h
    · simp at h
    · simp at h
    · next raw =>
      split at h
      · next hv =>
        simp only [Prod.mk.injEq, Except.ok.injEq, Option.some.injEq] at h
        obtain ⟨rfl, -⟩ := h
        exact hv
      · simp at h

/-- Under a well-formed memo, every record `fetch_quote_basic` returns was
validator-accepted. -/
theorem fetch_result_valid (env : QuotesEnv) (symbol : String) (st : AggState)
    (q : Quote) (st1 : AggState) (n : ℕ)
    (hwf : memoWFb st.memo = true)
    (h : fetch_quote_basic env symbol st = (.ok (some q), st1, n)) :
    valid_bar q = true := by
  simp only [fetch_quote_basic] at h
  split at h
  · next v hm =>
    simp only [Prod.mk.injEq, Except.ok.injEq] at h
    obtain ⟨rfl, -⟩ := h
    obtain ⟨p, hp, hp2⟩ := Option.map_eq_some'.mp hm
    have hmem := List.mem_of_find?_eq_some hp
    have := List.all_eq_true.mp hwf p hmem
    rw [hp2] at this
    exact this
  · split at h
    · simp at h
    · next q2 st2 n2 hfh =>
      simp only [Prod.mk.injEq, Except.ok.injEq, Option.some.injEq] at h
      obtain ⟨rfl, -⟩ := h
      exact from_finnhub_valid env (pyNormSym symbol) st q2 st2 n2 hfh
    · split at h
      · simp at h
      · next q1 =>
        split at h
        · next hok1 =>
          simp only [Prod.mk.injEq, Except.ok.injEq] at h
          obtain ⟨rfl, -⟩ := h
          exact hok1
        · split at h
          · simp at h
          · next q2 =>
            split at h
            · next hok2 =>
              simp only [Prod.mk.injEq, Except.ok.injEq] at h
              obtain ⟨rfl, -⟩ := h
              exact hok2
            · split at h
              · simp at h
              · next q3 =>
                split at h
                · next hok3 =>
                  simp only [Prod.mk.injEq, Except.ok.injEq] at h
                  obtain ⟨rfl, -⟩ := h
                  exact hok3
                · simp at h

/-- C9 counterexample: with the registry set and a raising finnhub adapter,
`pct_change_today` propagates the exception even though no record exists for
the symbol — it does not return the neutral `0`. -/
theorem pct_change_today_raises_cex :
    pct_change_today envRaisingFinnhub "IBM" emptyAgg = (.error (), emptyAgg, 1)
    ∧ memoLookup emptyAgg.memo (pyNormSym "IBM") = none
    ∧ ((.error () : Except Unit ℚ) ≠ .ok 0) :=
  ⟨by rfl, by rfl, by intro h; cases h⟩

/-- C9 amended: whenever the underlying fetch completes without raising and
the memo is well-formed (it only ever holds validator-accepted records or the
absence sentinel), `pct_change_today` returns `0` when no record exists, and
`(close/open − 1) × 100` when a record exists — whose `open` is then
necessarily positive, so the code's `open == 0` neutral branch subsumes the
claim's `open ≤ 0` clause (stated here as a vacuously satisfied conjunct);
when a provider adapter raises during the fetch, the exception propagates
instead. -/
theorem pct_change_today_spec (env : QuotesEnv) (symbol : String) (st : AggState)
    (res : Except Unit (Option Quote)) (st1 : AggState) (n : ℕ)
    (hwf : memoWFb st.memo = true)
    (hf : fetch_quote_basic env symbol st = (res, st1, n)) :
    (res = .ok none → pct_change_today env symbol st = (.ok 0, st1, n))
    ∧ (∀ q, res = .ok (some q) → 0 < q.openp ∧
        pct_change_today env symbol st = (.ok ((q.last / q.openp - 1) * 100), st1, n))
    ∧ (∀ q, res = .ok (some q) → q.openp ≤ 0 → pct_change_today env symbol st = (.ok 0, st1, n)) := by
  refine ⟨?_, ?_, ?_⟩
  · rintro rfl
    simp only [pct_change_today, hf]
  · rintro q rfl
    have hv := fetch_result_valid env symbol st q st1 n hwf hf
    have ho : 0 < q.openp := ((valid_bar_iff q).mp hv).1
    refine ⟨ho, ?_⟩
    simp only [pct_change_today, hf]
    rw [if_neg (ne_of_gt ho)]
  · rintro q rfl hle
    have hv := fetch_result_valid env symbol st q st1 n hwf hf
    have ho : 0 < q.openp := ((valid_bar_iff q).mp hv).1
    exact absurd hle (not_le.mpr ho)

/-- Witness for C9 amended: with every provider empty, `pct_change_today`
returns the neutral `0` (and the absence sentinel is memoized). -/
theorem pct_change_today_spec_w :
    pct_change_today envAllMiss "AAPL" emptyAgg =
      (.ok 0,
       { memo := [(pyNormSym "AAPL", none)],
         pull_log := [⟨pyNormSym (pyNormSym "AAPL"), "yahoo_direct", false, ""⟩,
                      ⟨pyNormSym (pyNormSym "AAPL"), "yfinance", false, ""⟩,
                      ⟨pyNormSym (pyNormSym "AAPL"), "stooq", false, ""⟩] },
       3) :=
  (pct_change_today_spec envAllMiss "AAPL" emptyAgg (.ok none)
      { memo := [(pyNormSym "AAPL", none)],
        pull_log := [⟨pyNormSym (pyNormSym "AAPL"), "yahoo_direct", false, ""⟩,
                     ⟨pyNormSym (pyNormSym "AAPL"), "yfinance", false, ""⟩,
                     ⟨pyNormSym (pyNormSym "AAPL"), "stooq", false, ""⟩] }
      3 rfl rfl).1 rfl

/-! ## Provider resolution helper lemmas -/

/-- A `name_to_fn` hit carries the looked-up name and comes from the default
list. -/
theorem name_to_fn_some {α : Type} {dl : List (String × α)} {nm : String}
    {p : String × α} (h : name_to_fn dl nm = some p) : p.1 = nm ∧ p ∈ dl := by
  unfold name_to_fn at h
  have h1 := List.find?_some h
  have h2 := List.mem_of_find?_eq_some h
  rw [List.mem_reverse] at h2
  exact ⟨by simpa using h1, h2⟩

/-- `name_to_fn` misses exactly the names outside the default list. -/
theorem name_to_fn_none_iff {α : Type} (dl : List (String × α)) (nm : String) :
    name_to_fn dl nm = none ↔ nm ∉ dl.map Prod.fst := by
  unfold name_to_fn
  rw [List.find?_eq_none]
  constructor
  · intro h hmem
    obtain ⟨p, hp, hfst⟩ := List.mem_map.mp hmem
    exact h p (List.mem_reverse.mpr hp) (by simpa using hfst)
  · intro h p hp hbeq
    exact h (List.mem_map.mpr ⟨p, List.mem_reverse.mp hp, by simpa using hbeq⟩)

/-- Filtering an override list through the `name_to_fn` dict keeps exactly
the names of the default list, in override order, and only pairs from the
default list. -/
theorem filterMap_name_to_fn {α : Type} (dl : List (String × α)) (names : List String) :
    ((names.filterMap (name_to_fn dl)).map Prod.fst
        = names.filter (fun nm => decide (nm ∈ dl.map Prod.fst)))
    ∧ ∀ p ∈ names.filterMap (name_to_fn dl), p ∈ dl := by
  induction names with
  | nil => exact ⟨rfl, by intro p hp; cases hp⟩
  | cons nm rest ih =>
    rw [List.filterMap_cons, List.filter_cons]
    cases hn : name_to_fn dl nm with
    | none =>
      have hnm : nm ∉ dl.map Prod.fst := (name_to_fn_none_iff dl nm).mp hn
      rw [if_neg (by simpa using hnm)]
      exact ih
    | some p =>
      obtain ⟨hfst, hmem⟩ := name_to_fn_some hn
      have hnm : nm ∈ dl.map Prod.fst := List.mem_map.mpr ⟨p, hmem, hfst⟩
      rw [if_pos (by simpa using hnm)]
      refine ⟨?_, ?_⟩
      · rw [List.map_cons, ih.1, hfst]
      · intro x hx
        rcases List.mem_cons.mp hx with rfl | hx2
        · exact hmem
        · exact ih.2 x hx2

/-- `pyStrip` of the empty string is empty. -/
theorem pyStrip_empty : pyStrip "" = "" := rfl

/-- When every attempt comes back falsy (no exception, empty payload), the
`fetch_factor` loop attempts exactly the registry-known providers of its
list, in order. -/
theorem fetch_factor_go_attempts {α β : Type} (reg : String → Bool)
    (outcome : ℕ → Except Unit (Option β))
    (hout : ∀ k, outcome k = .ok none) :
    ∀ (pl : List (String × α)) (k : ℕ),
      (fetch_factor_go reg outcome pl k).2 = (pl.map Prod.fst).filter reg := by
  intro pl
  induction pl with
  | nil => intro k; rfl
  | cons pr rest ih =>
    intro k
    obtain ⟨nm, fn⟩ := pr
    simp only [fetch_factor_go]
    by_cases hr : reg nm = true
    · rw [if_pos hr]
      simp only [hout k]
      rw [List.map_cons, List.filter_cons, if_pos hr]
      simp only [ih (k + 1)]
    · rw [if_neg hr]
      rw [List.map_cons, List.filter_cons, if_neg hr]
      exact ih k

/-- C8: provider-order resolution.  (1) With no override the built-in default
list is used.  (2) A non-empty per-factor override takes precedence: the
global override is ignored.  (3)–(4) With the per-factor variable unset or
empty, the global override is used exactly as a per-factor one would be.
(5) An override that is all whitespace resolves to the default list.
(6) For a non-blank override: names not in the factor's default set are
silently dropped (the resolved names are exactly the override names that
occur in the default set, in override order, and every resolved entry comes
from the default list), and if that filtering drops everything the default
list is used unmodified.  (7) `fetch_factor` attempts providers in exactly
the resolved order (restricted to registry-known names). -/
theorem resolve_providers_spec (α β : Type) (dl : List (String × α))
    (reg : String → Bool) (outcome : ℕ → Except Unit (Option β)) :
    (resolve_providers none none dl = dl)
    ∧ (∀ s g, s ≠ "" → resolve_providers (some s) g dl = resolve_providers (some s) none dl)
    ∧ (∀ s, resolve_providers none (some s) dl = resolve_providers (some s) none dl)
    ∧ (∀ s, resolve_providers (some "") (some s) dl = resolve_providers (some s) none dl)
    ∧ (∀ s, pyStrip s = "" → resolve_providers (some s) none dl = dl)
    ∧ (∀ s, pyStrip s ≠ "" →
        (((parse_names (pyStrip s)).filter (fun nm => decide (nm ∈ dl.map Prod.fst)) = []) →
            resolve_providers (some s) none dl = dl)
        ∧ (((parse_names (pyStrip s)).filter (fun nm => decide (nm ∈ dl.map Prod.fst)) ≠ []) →
            (resolve_providers (some s) none dl).map Prod.fst
                = (parse_names (pyStrip s)).filter (fun nm => decide (nm ∈ dl.map Prod.fst))
            ∧ ∀ p ∈ resolve_providers (some s) none dl, p ∈ dl))
    ∧ (∀ perFactor glob, (∀ k, outcome k = .ok none) →
        (fetch_factor reg outcome perFactor glob dl).2
            = ((resolve_providers perFactor glob dl).map Prod.fst).filter reg) := by
  refine ⟨rfl, ?_, fun s => rfl, fun s => rfl, ?_, ?_, ?_⟩
  · intro s g hs
    simp only [resolve_providers, pyOrStr, if_neg hs]
  · intro s hstrip
    by_cases hs : s = ""
    · subst hs
      simp [resolve_providers, pyOrStr, pyStrip_empty]
    · simp [resolve_providers, pyOrStr, hs, hstrip]
  · intro s hstrip
    have hs : s ≠ "" := by
      intro heq
      subst heq
      exact hstrip pyStrip_empty
    have horder : pyOrStr (some s) (pyOrStr none "") = s := by
      simp [pyOrStr, hs]
    constructor
    · intro hfil
      have hout : (parse_names (pyStrip s)).filterMap (name_to_fn dl) = [] := by
        have h1 := (filterMap_name_to_fn dl (parse_names (pyStrip s))).1
        rw [hfil] at h1
        exact List.map_eq_nil_iff.mp h1
      simp only [resolve_providers, horder]
      rw [if_neg hstrip, hout]
      rfl
    · intro hfil
      have hout : (parse_names (pyStrip s)).filterMap (name_to_fn dl) ≠ [] := by
        intro heq
        have h1 := (filterMap_name_to_fn dl (parse_names (pyStrip s))).1
        rw [heq] at h1
        exact hfil h1.symm
      simp only [resolve_providers, horder]
      rw [if_neg hstrip, if_neg (by simpa [List.isEmpty_iff] using hout)]
      exact ⟨(filterMap_name_to_fn dl (parse_names (pyStrip s))).1,
        (filterMap_name_to_fn dl (parse_names (pyStrip s))).2⟩
  · intro perFactor glob hout
    exact fetch_factor_go_attempts reg outcome hout (resolve_providers perFactor glob dl) 0

/-- Witness for C8: with no override set, every provider registry-known and
every attempt empty, `fetch_factor` attempts exactly the default providers in
their built-in order. -/
theorem resolve_providers_spec_w :
    (fetch_factor (fun _ => true) (fun _ => (Except.ok none : Except Unit (Option ℕ)))
        none none [("a", (0 : ℕ)), ("b", 1)]).2 = ["a", "b"] := by
  have h := (resolve_providers_spec ℕ ℕ [("a", (0 : ℕ)), ("b", 1)] (fun _ => true)
      (fun _ => (Except.ok none : Except Unit (Option ℕ)))).2.2.2.2.2.2 none none (fun k => rfl)
  rw [h]
  rfl
